import Mathlib

/-!
Verification of the cpe-guesser-go keyword search engine.

The Go server is embedded shallowly: the Valkey/Redis backing store is a
`Store` value holding the `w:<token>` member sets and the `rank:cpe`
sorted-set scores, plus a `failing` flag modelling a store communication
failure (every store command issued by the Go client returns an error exactly
when the connection is down, which the flag captures).  Fallible Go functions
become `Except` computations.  The Go `float64` scores only ever hold integer
rank counts and are modelled as `Int`.  `strings.ToLower` is modelled on the
ASCII range, which covers all CPE dictionary data.
-/

/-- ASCII lowercasing of one character (model of Go `strings.ToLower`,
restricted to the ASCII range used by CPE data). -/
def lowerChar (c : Char) : Char :=
  if 65 ≤ c.toNat ∧ c.toNat ≤ 90 then Char.ofNat (c.toNat + 32) else c

/-- Model of `strings.ToLower` on whole strings. -/
def strLower (s : String) : String := String.mk (s.data.map lowerChar)

/-- Prepend a character onto the first piece of a split result. -/
def consHead (c : Char) : List (List Char) → List (List Char)
  | [] => [[c]]
  | p :: ps => (c :: p) :: ps

/-- Split a character list on a separator character, keeping empty pieces,
exactly as Go `strings.Split` behaves for a one-character separator. -/
def splitSep (sep : Char) : List Char → List (List Char)
  | [] => [[]]
  | c :: cs => if c = sep then [] :: splitSep sep cs else consHead c (splitSep sep cs)

/-- Join pieces with a separator character (left inverse of `splitSep`). -/
def joinSep (sep : Char) : List (List Char) → List Char
  | [] => []
  | [p] => p
  | p :: ps => p ++ sep :: joinSep sep ps

/-- Shallow embedding of `canonize` (src/internal/config/config.go, lines
265-268): `strings.Split(strings.ToLower(val), "_")`.  Go `strings.Split`
keeps empty pieces and yields one empty piece for the empty string, exactly
as `splitSep` does. -/
def canonize (s : String) : List String :=
  (splitSep '_' (strLower s).data).map (fun p => String.mk p)

/-- Shallow embedding of `extract` (src/internal/config/config.go, lines
254-263): split the full identifier on `:`; with fewer than 5 parts return
empty vendor and product and the raw line, otherwise vendor is parts[3],
product is parts[4], and the entry is `strings.Join(parts[:5], ":")`. -/
def extract (full : String) : String × String × String :=
  let fields := splitSep ':' full.data
  if fields.length < 5 then ("", "", full)
  else (String.mk (fields.getD 3 []),
        String.mk (fields.getD 4 []),
        String.mk (joinSep ':' (fields.take 5)))

/-- Database 8 as this program uses it: the `w:<token>` member sets
(association list from full key to members), the legacy `s:<token>` score
sets the import maintains for compatibility (written, never read by the
server), the `rank:cpe` sorted-set scores, and a flag modelling a store
communication failure. -/
structure Store where
  wsets : List (String × List String)
  sscores : List (String × List (String × Int))
  rank : List (String × Int)
  failing : Bool

/-- First-binding association lookup, the member set stored under a key. -/
def listGetSet : List (String × List String) → String → List String
  | [], _ => []
  | kv :: rest, k => if kv.1 = k then kv.2 else listGetSet rest k

/-- First-binding association lookup, the score stored for an entry. -/
def listRank : List (String × Int) → String → Option Int
  | [], _ => none
  | kv :: rest, e => if kv.1 = e then some kv.2 else listRank rest e

/-- SMEMBERS result for a key (empty for an absent key). -/
def Store.getSet (st : Store) (k : String) : List String :=
  listGetSet st.wsets k

/-- Score of an entry in `rank:cpe`, defaulting to 0 (the Go code maps a
`redis.Nil` reply to the score 0.0). -/
def Store.rankOf (st : Store) (e : String) : Int :=
  (listRank st.rank e).getD 0

/-- Every member-set key carries the `w:` prefix, as the import pipeline
writes them. -/
def Store.wfKeys (st : Store) : Prop :=
  ∀ k ∈ st.wsets.map Prod.fst, k.data.take 2 = ['w', ':']

instance (st : Store) : Decidable st.wfKeys :=
  inferInstanceAs (Decidable (∀ k ∈ st.wsets.map Prod.fst, k.data.take 2 = ['w', ':']))

/-- All suffixes of a list, longest first. -/
def suffixes : List Char → List (List Char)
  | [] => [[]]
  | c :: cs => (c :: cs) :: suffixes cs

/-- Redis/Valkey glob matching for the patterns this server builds: `*`
matches any span, `?` any single character, every other character literally.
(Character classes and backslash escapes exist in redis globbing but are not
modelled; theorems relying on glob semantics restrict keywords accordingly.) -/
def globMatch : List Char → List Char → Bool
  | [], cs => cs.isEmpty
  | p :: ps, cs =>
    if p = '*' then (suffixes cs).any (fun b => globMatch ps b)
    else
      match cs with
      | [] => false
      | c :: cs2 => (p == '?' || p == c) && globMatch ps cs2

/-- The SCAN pattern `"w:*" + strings.ToLower(w) + "*"` that `partialSearch`
builds for keyword `w`. -/
def scanPat (w : String) : List Char :=
  'w' :: ':' :: '*' :: ((strLower w).data ++ ['*'])

/-- Whether a stored key is returned by the SCAN for keyword `w`. -/
def scanMatch (w k : String) : Bool := globMatch (scanPat w) k.data

def isPrefixList : List Char → List Char → Bool
  | [], _ => true
  | _ :: _, [] => false
  | a :: as, b :: bs => a == b && isPrefixList as bs

/-- Contiguous-substring test: `isSubList xs ys` holds iff `ys = a ++ xs ++ b`
for some `a`, `b`. -/
def isSubList : List Char → List Char → Bool
  | xs, [] => xs.isEmpty
  | xs, y :: tl => isPrefixList xs (y :: tl) || isSubList xs tl

/-- The keyword's lowercased form contains no redis glob metacharacter. -/
def litKeyword (w : String) : Prop :=
  ∀ c ∈ (strLower w).data, c ≠ '*' ∧ c ≠ '?' ∧ c ≠ '[' ∧ c ≠ '\\'

instance : DecidablePred litKeyword := fun w =>
  inferInstanceAs (Decidable (∀ c ∈ (strLower w).data, c ≠ '*' ∧ c ≠ '?' ∧ c ≠ '[' ∧ c ≠ '\\'))

def Store.sMembers (st : Store) (k : String) : Except String (List String) :=
  if st.failing then Except.error "SMEMBERS failed" else Except.ok (st.getSet k)

def Store.sInter (st : Store) (ks : List String) : Except String (List String) :=
  if st.failing then Except.error "SINTER failed"
  else Except.ok
    (match ks with
     | [] => []
     | k :: rest => (st.getSet k).filter (fun e => rest.all (fun k2 => (st.getSet k2).contains e)))

def Store.zScore (st : Store) (e : String) : Except String (Option Int) :=
  if st.failing then Except.error "ZSCORE failed" else Except.ok (listRank st.rank e)

/-- The keys produced by a full SCAN with the pattern for keyword `w`. -/
def Store.scanList (st : Store) (w : String) : List String :=
  (st.wsets.map Prod.fst).filter (fun k => scanMatch w k)

def Store.scanKeys (st : Store) (w : String) : Except String (List String) :=
  if st.failing then Except.error "SCAN failed" else Except.ok (st.scanList w)

/-- The descending-by-score comparison used by both search strategies
(Go `sort.Slice` with `result[i][0] > result[j][0]`). -/
def rankGE (a b : Int × String) : Prop := b.1 ≤ a.1

instance : DecidableRel rankGE := fun a b => inferInstanceAs (Decidable (b.1 ≤ a.1))

instance : IsTotal (Int × String) rankGE := ⟨fun a b => le_total b.1 a.1⟩

instance : IsTrans (Int × String) rankGE := ⟨fun _ _ _ h1 h2 => le_trans h2 h1⟩

/-- The final sort of both Go search functions; `sort.Slice` leaves ties in
unspecified order, realised here as a stable insertion sort. -/
def sortRanked (l : List (Int × String)) : List (Int × String) := List.insertionSort rankGE l

/-- Scores are non-increasing along the result list. -/
def sortedByRankDesc (l : List (Int × String)) : Prop := l.Pairwise rankGE

/-- The score-attachment loop shared verbatim by both Go search functions:
`ZSCORE rank:cpe cpe` per entry, `redis.Nil` becomes the score 0, any other
error aborts. -/
def getRanks (st : Store) : List String → Except String (List (Int × String))
  | [] => Except.ok []
  | c :: rest =>
    match st.zScore c with
    | Except.error e => Except.error e
    | Except.ok r =>
      match getRanks st rest with
      | Except.error e => Except.error e
      | Except.ok tail => Except.ok ((r.getD 0, c) :: tail)

/-- The set key `exactSearch` builds for one keyword:
`"w:" + strings.ToLower(w)` (src/unnamed/part_000, line 246). -/
def exactKey (w : String) : String := "w:" ++ strLower w

/-- Shallow embedding of `exactSearch` (src/unnamed/part_000, lines 238-288). -/
def exactSearch (st : Store) (words : List String) : Except String (List (Int × String)) :=
  if words.isEmpty then Except.ok []
  else
    match (match words.map exactKey with
           | [k] => st.sMembers k
           | ks => st.sInter ks) with
    | Except.error e => Except.error e
    | Except.ok cpes =>
      if cpes.isEmpty then Except.ok []
      else
        match getRanks st cpes with
        | Except.error e => Except.error e
        | Except.ok ranked => Except.ok (sortRanked ranked)

/-- The member list the exact strategy retrieves before ranking: a direct
SMEMBERS for one keyword, the SINTER intersection for several. -/
def cpesExact (st : Store) : List String → List String
  | [] => []
  | [w] => st.getSet (exactKey w)
  | w :: rest =>
    (st.getSet (exactKey w)).filter
      (fun e => (rest.map exactKey).all (fun x => (st.getSet x).contains e))

/-- Attach ranks and sort descending, the tail shared by both strategies. -/
def assembleRanked (st : Store) (cpes : List String) : List (Int × String) :=
  sortRanked (cpes.map (fun c => (st.rankOf c, c)))

/-- Insert a member into the accumulated CPE collection unless already present
(the Go `cpeMap` set-of-struct map, modelled as an insertion-ordered list). -/
def addMember (acc : List String) (c : String) : List String :=
  if c ∈ acc then acc else acc ++ [c]

def collectKeys (st : Store) (acc : List String) : List String → Except String (List String)
  | [] => Except.ok acc
  | k :: rest =>
    match st.sMembers k with
    | Except.error e => Except.error e
    | Except.ok ms => collectKeys st (ms.foldl addMember acc) rest

def collectWords (st : Store) (acc : List String) : List String → Except String (List String)
  | [] => Except.ok acc
  | w :: rest =>
    match st.scanKeys w with
    | Except.error e => Except.error e
    | Except.ok keys =>
      match collectKeys st acc keys with
      | Except.error e => Except.error e
      | Except.ok acc2 => collectWords st acc2 rest

/-- The deduplicated member collection the partial strategy accumulates. -/
def cpesPartial (st : Store) (words : List String) : List String :=
  words.foldl
    (fun a w => (st.scanList w).foldl (fun a2 k => (st.getSet k).foldl addMember a2) a) []

/-- Shallow embedding of `partialSearch` (src/unnamed/part_000, lines 290-344). -/
def partialSearch (st : Store) (words : List String) : Except String (List (Int × String)) :=
  if words.isEmpty then Except.ok []
  else
    match collectWords st [] words with
    | Except.error e => Except.error e
    | Except.ok cpes =>
      if cpes.isEmpty then Except.ok []
      else
        match getRanks st cpes with
        | Except.error e => Except.error e
        | Except.ok ranked => Except.ok (sortRanked ranked)

inductive SearchResponse where
  | badRequest
  | serverError (msg : String)
  | ok (results : List (Int × String))
  deriving DecidableEq

inductive UniqueResponse where
  | badRequest
  | found (entry : String)
  | noMatch
  deriving DecidableEq

/-- Shallow embedding of `handleSearch` (src/unnamed/part_000, lines 346-368);
the request body is `none` when JSON decoding fails. -/
def handleSearch (body : Option (List String)) (st : Store) : SearchResponse :=
  match body with
  | none => SearchResponse.badRequest
  | some q =>
    match exactSearch st q with
    | Except.error e => SearchResponse.serverError e
    | Except.ok res =>
      if res.isEmpty then
        match partialSearch st q with
        | Except.error e => SearchResponse.serverError e
        | Except.ok res2 => SearchResponse.ok res2
      else SearchResponse.ok res

/-- Shallow embedding of `handleUnique` (src/unnamed/part_000, lines 370-390):
a strategy error or empty result falls through, and when both strategies fail
or come back empty the handler replies with the empty `[]` encoding. -/
def handleUnique (body : Option (List String)) (st : Store) : UniqueResponse :=
  match body with
  | none => UniqueResponse.badRequest
  | some q =>
    match exactSearch st q with
    | Except.ok (r :: _) => UniqueResponse.found r.2
    | _ =>
      match partialSearch st q with
      | Except.ok (r :: _) => UniqueResponse.found r.2
      | _ => UniqueResponse.noMatch

/-- SADD: add an entry to the member set under a key, without duplicates. -/
def addToSet (ws : List (String × List String)) (k e : String) : List (String × List String) :=
  match ws with
  | [] => [(k, [e])]
  | kv :: rest =>
    if kv.1 = k then (kv.1, if e ∈ kv.2 then kv.2 else kv.2 ++ [e]) :: rest
    else kv :: addToSet rest k e

def incrRank (rs : List (String × Int)) (e : String) : List (String × Int) :=
  match rs with
  | [] => [(e, 1)]
  | kv :: rest => if kv.1 = e then (kv.1, kv.2 + 1) :: rest else kv :: incrRank rest e

/-- ZINCRBY by 1 on a member of the sorted set stored under a key. -/
def addZIncr (zs : List (String × List (String × Int))) (k e : String) :
    List (String × List (String × Int)) :=
  match zs with
  | [] => [(k, [(e, 1)])]
  | kv :: rest =>
    if kv.1 = k then (kv.1, incrRank kv.2 e) :: rest else kv :: addZIncr rest k e

/-- Shallow embedding of one `cpe23-item` record of the import populate loop
(src/internal/config/config.go, lines 209-227): `extract` the name attribute,
then for every token of the canonized vendor followed by every token of the
canonized product, SAdd the entry into the `w:<token>` set and ZIncrBy the
legacy `s:<token>` score, and finally ZIncrBy the entry's `rank:cpe` score
once for the record. -/
def buildStep (st : Store) (full : String) : Store :=
  match extract full with
  | (vendor, product, entry) =>
    let st1 := (canonize vendor ++ canonize product).foldl
      (fun s t =>
        { s with
          wsets := addToSet s.wsets ("w:" ++ t) entry,
          sscores := addZIncr s.sscores ("s:" ++ t) entry })
      st
    { st1 with rank := incrRank st1.rank entry }

/-- Shallow embedding of the `runImport` populate loop (src/internal/config/
config.go, lines 193-243) on a fresh — empty or just-flushed — database: the
stream of `cpe23-item` name attributes folded through `buildStep`.  The
5000-record pipeline batching only flushes the client's write buffer and
cannot change the final state, since any batch error is fatal. -/
def runImport (records : List String) : Store :=
  records.foldl buildStep { wsets := [], sscores := [], rank := [], failing := false }

/-- A well-shaped entry: exactly five colon-separated fields. -/
def entryOK (e : String) : Prop := (splitSep ':' e.data).length = 5

def demoStore : Store :=
  { wsets := [("w:apache", ["E1", "E2"]), ("w:tomcat", ["E1"]), ("w:struts", ["E2"])],
    sscores := [],
    rank := [("E1", 5), ("E2", 3)],
    failing := false }

def failStore : Store :=
  { wsets := [("w:apache", ["E1"])], sscores := [], rank := [], failing := true }

def oneKeyStore : Store :=
  { wsets := [("w:a", ["E1"])], sscores := [], rank := [], failing := false }

def globStore : Store :=
  { wsets := [("w:abc", ["E9"])], sscores := [], rank := [], failing := false }

theorem lowerAux (n : Nat) (h1 : 65 ≤ n) (h2 : n ≤ 90) :
    lowerChar (Char.ofNat (n + 32)) = Char.ofNat (n + 32) := by
  interval_cases n <;> decide

theorem lowerChar_fix (c : Char) (h : ¬ (65 ≤ c.toNat ∧ c.toNat ≤ 90)) : lowerChar c = c := by
  rw [lowerChar, if_neg h]

theorem lowerChar_idem (c : Char) : lowerChar (lowerChar c) = lowerChar c := by
  by_cases h : 65 ≤ c.toNat ∧ c.toNat ≤ 90
  · rw [show lowerChar c = Char.ofNat (c.toNat + 32) from by rw [lowerChar, if_pos h]]
    exact lowerAux c.toNat h.1 h.2
  · rw [lowerChar_fix c h, lowerChar_fix c h]

theorem consHead_ne_nil (c : Char) (ps : List (List Char)) : consHead c ps ≠ [] := by
  cases ps <;> simp [consHead]

theorem splitSep_ne_nil (sep : Char) (cs : List Char) : splitSep sep cs ≠ [] := by
  induction cs with
  | nil => simp [splitSep]
  | cons c cs ih =>
    by_cases h : c = sep
    · simp [splitSep, h]
    · simp only [splitSep, if_neg h]
      exact consHead_ne_nil c _

theorem mem_of_mem_splitSep {sep : Char} {cs p : List Char} (hp : p ∈ splitSep sep cs) :
    ∀ c ∈ p, c ∈ cs := by
  induction cs generalizing p with
  | nil =>
    simp [splitSep] at hp
    simp [hp]
  | cons c cs ih =>
    by_cases h : c = sep
    · rw [splitSep, if_pos h] at hp
      rcases List.mem_cons.mp hp with h1 | h1
      · simp [h1]
      · intro x hx
        exact List.mem_cons_of_mem _ (ih h1 x hx)
    · rw [splitSep, if_neg h] at hp
      rcases hq : splitSep sep cs with _ | ⟨q, qs⟩
      · exact absurd hq (splitSep_ne_nil sep cs)
      · rw [hq, consHead] at hp
        rcases List.mem_cons.mp hp with h1 | h1
        · subst h1
          intro x hx
          rcases List.mem_cons.mp hx with h2 | h2
          · simp [h2]
          · exact List.mem_cons_of_mem _
              (ih (by rw [hq]; exact List.mem_cons_self q qs) x h2)
        · intro x hx
          exact List.mem_cons_of_mem _
            (ih (by rw [hq]; exact List.mem_cons_of_mem q h1) x hx)

theorem sep_not_mem_splitSep {sep : Char} {cs p : List Char} (hp : p ∈ splitSep sep cs) :
    sep ∉ p := by
  induction cs generalizing p with
  | nil =>
    simp [splitSep] at hp
    simp [hp]
  | cons c cs ih =>
    by_cases h : c = sep
    · rw [splitSep, if_pos h] at hp
      rcases List.mem_cons.mp hp with h1 | h1
      · simp [h1]
      · exact ih h1
    · rw [splitSep, if_neg h] at hp
      rcases hq : splitSep sep cs with _ | ⟨q, qs⟩
      · exact absurd hq (splitSep_ne_nil sep cs)
      · rw [hq, consHead] at hp
        rcases List.mem_cons.mp hp with h1 | h1
        · subst h1
          intro hx
          rcases List.mem_cons.mp hx with h2 | h2
          · exact h h2.symm
          · exact ih (by rw [hq]; exact List.mem_cons_self q qs) h2
        · exact ih (by rw [hq]; exact List.mem_cons_of_mem q h1)

theorem splitSep_eq_single {sep : Char} {cs : List Char} (h : sep ∉ cs) :
    splitSep sep cs = [cs] := by
  induction cs with
  | nil => rfl
  | cons c cs ih =>
    have hc : ¬ c = sep := fun hcc => h (by simp [hcc])
    have hcs : sep ∉ cs := fun hx => h (List.mem_cons_of_mem c hx)
    rw [splitSep, if_neg hc, ih hcs]
    rfl

theorem joinSep_cons (sep : Char) (p : List Char) {r : List (List Char)} (h : r ≠ []) :
    joinSep sep (p :: r) = p ++ sep :: joinSep sep r := by
  cases r with
  | nil => exact absurd rfl h
  | cons q qs => rfl

theorem joinSep_consHead (sep c : Char) {r : List (List Char)} (h : r ≠ []) :
    joinSep sep (consHead c r) = c :: joinSep sep r := by
  cases r with
  | nil => exact absurd rfl h
  | cons q qs =>
    cases qs with
    | nil => rfl
    | cons q2 qs2 => rfl

theorem joinSep_splitSep (sep : Char) (cs : List Char) :
    joinSep sep (splitSep sep cs) = cs := by
  induction cs with
  | nil => rfl
  | cons c cs ih =>
    by_cases h : c = sep
    · rw [splitSep, if_pos h, joinSep_cons sep [] (splitSep_ne_nil sep cs), ih, h]
      rfl
    · rw [splitSep, if_neg h, joinSep_consHead sep c (splitSep_ne_nil sep cs), ih]

theorem splitSep_length (sep : Char) (cs : List Char) :
    (splitSep sep cs).length = cs.count sep + 1 := by
  induction cs with
  | nil => simp [splitSep]
  | cons c cs ih =>
    by_cases h : c = sep
    · subst h
      simp [splitSep, ih, List.count_cons]
    · rcases hq : splitSep sep cs with _ | ⟨q, qs⟩
      · exact absurd hq (splitSep_ne_nil sep cs)
      · have hlen : (splitSep sep (c :: cs)).length = (splitSep sep cs).length := by
          rw [splitSep, if_neg h, hq]
          rfl
        have hcount : (c :: cs).count sep = cs.count sep := by
          have : ¬ sep = c := fun hh => h hh.symm
          simp [List.count_cons, this]
        rw [hlen, ih, hcount]

theorem joinSep_count {sep : Char} {ps : List (List Char)} (hps : ps ≠ [])
    (h : ∀ p ∈ ps, sep ∉ p) : (joinSep sep ps).count sep = ps.length - 1 := by
  induction ps with
  | nil => exact absurd rfl hps
  | cons p qs ih =>
    cases qs with
    | nil =>
      simp [joinSep, List.count_eq_zero.mpr (h p (List.mem_cons_self p []))]
    | cons q qs2 =>
      rw [joinSep_cons sep p (by simp)]
      rw [List.count_append]
      have h1 : p.count sep = 0 := List.count_eq_zero.mpr (h p (List.mem_cons_self p _))
      have h2 := ih (by simp) (fun x hx => h x (List.mem_cons_of_mem p hx))
      have h3 : (sep :: joinSep sep (q :: qs2)).count sep
          = (joinSep sep (q :: qs2)).count sep + 1 := by
        simp [List.count_cons]
      rw [h1, h3, h2]
      simp

theorem canonize_empty : canonize "" = [""] := rfl

theorem canonize_join (s : String) :
    joinSep '_' ((canonize s).map String.data) = (strLower s).data := by
  rw [canonize, List.map_map]
  have hid : (String.data ∘ fun p => String.mk p) = id := by
    funext p
    rfl
  rw [hid, List.map_id, joinSep_splitSep]

theorem canonize_no_underscore {s t : String} (ht : t ∈ canonize s) : '_' ∉ t.data := by
  rw [canonize] at ht
  rcases List.mem_map.mp ht with ⟨p, hp, he⟩
  rw [← he]
  exact sep_not_mem_splitSep hp

theorem canonize_token_fixed {s t : String} (ht : t ∈ canonize s) : canonize t = [t] := by
  rw [canonize] at ht
  rcases List.mem_map.mp ht with ⟨p, hp, he⟩
  have hlow : ∀ c ∈ p, lowerChar c = c := by
    intro c hc
    have hcs : c ∈ (strLower s).data := mem_of_mem_splitSep hp c hc
    have hcs2 : c ∈ s.data.map lowerChar := hcs
    rcases List.mem_map.mp hcs2 with ⟨c0, _, hc0⟩
    rw [← hc0]
    exact lowerChar_idem c0
  have hmap : p.map lowerChar = p := by
    calc p.map lowerChar = p.map id := List.map_congr_left hlow
    _ = p := List.map_id p
  have hdata : (strLower t).data = p := by
    rw [← he]
    show (String.mk (p.map lowerChar)).data = p
    rw [hmap]
  rw [canonize, hdata, splitSep_eq_single (sep_not_mem_splitSep hp)]
  rw [show [p].map (fun q => String.mk q) = [String.mk p] from rfl, he]

theorem extract_malformed {full : String} (h : (splitSep ':' full.data).length < 5) :
    extract full = ("", "", full) := by
  rw [extract]
  simp only [if_pos h]

theorem extract_entry_fields {full : String} (h : ¬ (splitSep ':' full.data).length < 5) :
    entryOK (extract full).2.2 := by
  rw [extract]
  simp only [if_neg h]
  have hlen : (List.take 5 (splitSep ':' full.data)).length = 5 := by
    rw [List.length_take]
    omega
  have hnn : List.take 5 (splitSep ':' full.data) ≠ [] := by
    intro hx
    rw [hx] at hlen
    simp at hlen
  have hns : ∀ p ∈ List.take 5 (splitSep ':' full.data), ':' ∉ p := fun p hp =>
    sep_not_mem_splitSep (List.mem_of_mem_take hp)
  show entryOK (String.mk (joinSep ':' (List.take 5 (splitSep ':' full.data))))
  rw [entryOK]
  rw [show (String.mk (joinSep ':' (List.take 5 (splitSep ':' full.data)))).data
      = joinSep ':' (List.take 5 (splitSep ':' full.data)) from rfl]
  rw [splitSep_length, joinSep_count hnn hns, hlen]

theorem mem_suffixes {cs b : List Char} : b ∈ suffixes cs ↔ ∃ a, cs = a ++ b := by
  induction cs with
  | nil =>
    constructor
    · intro hb
      simp [suffixes] at hb
      exact ⟨[], by simp [hb]⟩
    · rintro ⟨a, ha⟩
      have h0 : a ++ b = [] := ha.symm
      simp [suffixes, (List.append_eq_nil.mp h0).2]
  | cons c cs ih =>
    constructor
    · intro hb
      rcases List.mem_cons.mp hb with h1 | h1
      · exact ⟨[], by simp [h1]⟩
      · rcases ih.mp h1 with ⟨a, ha⟩
        exact ⟨c :: a, by simp [ha]⟩
    · rintro ⟨a, ha⟩
      cases a with
      | nil =>
        simp at ha
        simp [suffixes, ha]
      | cons x xs =>
        simp at ha
        exact List.mem_cons_of_mem _ (ih.mpr ⟨xs, ha.2⟩)

theorem globMatch_none {cs : List Char} : globMatch [] cs = true ↔ cs = [] := by
  simp [globMatch]

theorem globMatch_star {ps cs : List Char} :
    globMatch ('*' :: ps) cs = true ↔ ∃ a b, cs = a ++ b ∧ globMatch ps b = true := by
  have h0 : globMatch ('*' :: ps) cs = (suffixes cs).any (fun b => globMatch ps b) := by
    simp [globMatch]
  rw [h0, List.any_eq_true]
  constructor
  · rintro ⟨b, hb, hg⟩
    rcases mem_suffixes.mp hb with ⟨a, ha⟩
    exact ⟨a, b, ha, hg⟩
  · rintro ⟨a, b, ha, hg⟩
    exact ⟨b, mem_suffixes.mpr ⟨a, ha⟩, hg⟩

theorem globMatch_lit {p : Char} {ps cs : List Char} (hp : p ≠ '*') (hq : p ≠ '?') :
    globMatch (p :: ps) cs = true ↔ ∃ cs2, cs = p :: cs2 ∧ globMatch ps cs2 = true := by
  cases cs with
  | nil => simp [globMatch, hp]
  | cons c cs2 =>
    have h0 : globMatch (p :: ps) (c :: cs2)
        = ((p == '?' || p == c) && globMatch ps cs2) := by
      simp [globMatch, hp]
    rw [h0, Bool.and_eq_true, Bool.or_eq_true]
    constructor
    · rintro ⟨h1 | h1, h2⟩
      · exact absurd (beq_iff_eq.mp h1) hq
      · rw [beq_iff_eq] at h1
        subst h1
        exact ⟨cs2, rfl, h2⟩
    · rintro ⟨cs3, hcs, hg⟩
      injection hcs with hc1 hc2
      subst hc1
      subst hc2
      exact ⟨Or.inr (by simp), hg⟩

theorem globMatch_litseq {W ps cs : List Char} (hW : ∀ c ∈ W, c ≠ '*' ∧ c ≠ '?') :
    globMatch (W ++ ps) cs = true ↔ ∃ b, cs = W ++ b ∧ globMatch ps b = true := by
  induction W generalizing cs with
  | nil => simp
  | cons c W ih =>
    have hc := hW c (List.mem_cons_self c W)
    rw [List.cons_append, globMatch_lit hc.1 hc.2]
    constructor
    · rintro ⟨cs2, rfl, hg⟩
      rcases (ih (fun x hx => hW x (List.mem_cons_of_mem c hx))).mp hg with ⟨b, rfl, hb⟩
      exact ⟨b, rfl, hb⟩
    · rintro ⟨b, rfl, hb⟩
      exact ⟨W ++ b, rfl,
        (ih (fun x hx => hW x (List.mem_cons_of_mem c hx))).mpr ⟨b, rfl, hb⟩⟩

theorem globMatch_star_end (cs : List Char) : globMatch ['*'] cs = true :=
  globMatch_star.mpr ⟨cs, [], by simp, rfl⟩

theorem isPrefixList_iff {xs ys : List Char} :
    isPrefixList xs ys = true ↔ ∃ b, ys = xs ++ b := by
  induction xs generalizing ys with
  | nil => simp [isPrefixList]
  | cons x xs ih =>
    cases ys with
    | nil => simp [isPrefixList]
    | cons y ys =>
      have h0 : isPrefixList (x :: xs) (y :: ys) = ((x == y) && isPrefixList xs ys) := rfl
      rw [h0, Bool.and_eq_true]
      constructor
      · rintro ⟨h1, h2⟩
        rw [beq_iff_eq] at h1
        subst h1
        rcases ih.mp h2 with ⟨b, rfl⟩
        exact ⟨b, rfl⟩
      · rintro ⟨b, hb⟩
        injection hb with hb1 hb2
        subst hb1
        exact ⟨by simp, ih.mpr ⟨b, hb2⟩⟩

theorem isSubList_iff {xs ys : List Char} :
    isSubList xs ys = true ↔ ∃ a b, ys = a ++ (xs ++ b) := by
  induction ys with
  | nil =>
    have h0 : isSubList xs [] = xs.isEmpty := rfl
    rw [h0, List.isEmpty_iff]
    constructor
    · intro h
      subst h
      exact ⟨[], [], rfl⟩
    · rintro ⟨a, b, hab⟩
      have h1 : a ++ (xs ++ b) = [] := hab.symm
      rcases List.append_eq_nil.mp h1 with ⟨-, h2⟩
      exact (List.append_eq_nil.mp h2).1
  | cons y tl ih =>
    have h0 : isSubList xs (y :: tl) = (isPrefixList xs (y :: tl) || isSubList xs tl) := rfl
    rw [h0, Bool.or_eq_true, isPrefixList_iff, ih]
    constructor
    · rintro (⟨b, hb⟩ | ⟨a, b, hb⟩)
      · exact ⟨[], b, by simp [hb]⟩
      · exact ⟨y :: a, b, by simp [hb]⟩
    · rintro ⟨a, b, hb⟩
      cases a with
      | nil =>
        simp at hb
        exact Or.inl ⟨b, hb⟩
      | cons z a2 =>
        simp at hb
        exact Or.inr ⟨a2, b, hb.2⟩

theorem scanMatch_iff {w k : String} (hw : ∀ c ∈ (strLower w).data, c ≠ '*' ∧ c ≠ '?') :
    scanMatch w k = true ↔
      ∃ rest, k.data = 'w' :: ':' :: rest ∧ isSubList (strLower w).data rest = true := by
  rw [scanMatch, scanPat]
  constructor
  · intro h
    rcases (globMatch_lit (by decide) (by decide)).mp h with ⟨cs2, hk, h2⟩
    rcases (globMatch_lit (by decide) (by decide)).mp h2 with ⟨cs3, hc2, h3⟩
    rcases globMatch_star.mp h3 with ⟨a, b, hc3, h4⟩
    rcases (globMatch_litseq hw).mp h4 with ⟨b2, hb, -⟩
    refine ⟨cs3, by rw [hk, hc2], ?_⟩
    exact isSubList_iff.mpr ⟨a, b2, by rw [hc3, hb]⟩
  · rintro ⟨rest, hk, hs⟩
    rcases isSubList_iff.mp hs with ⟨a, b, hr⟩
    apply (globMatch_lit (by decide) (by decide)).mpr
    refine ⟨':' :: rest, by rw [hk], ?_⟩
    apply (globMatch_lit (by decide) (by decide)).mpr
    refine ⟨rest, rfl, ?_⟩
    apply globMatch_star.mpr
    refine ⟨a, (strLower w).data ++ b, hr, ?_⟩
    apply (globMatch_litseq hw).mpr
    exact ⟨b, rfl, globMatch_star_end b⟩

theorem mem_listGetSet_key {ws : List (String × List String)} {k e : String}
    (h : e ∈ listGetSet ws k) : k ∈ ws.map Prod.fst := by
  induction ws with
  | nil => simp [listGetSet] at h
  | cons kv rest ih =>
    rw [List.map_cons]
    by_cases hk : kv.1 = k
    · exact hk ▸ List.mem_cons_self _ _
    · simp only [listGetSet, if_neg hk] at h
      exact List.mem_cons_of_mem _ (ih h)

theorem sMembers_ok {st : Store} (h : st.failing = false) (k : String) :
    st.sMembers k = Except.ok (st.getSet k) := by
  simp [Store.sMembers, h]

theorem sInter_ok2 {st : Store} (h : st.failing = false) (k k2 : String) (ks : List String) :
    st.sInter (k :: k2 :: ks) = Except.ok ((st.getSet k).filter
      (fun e => (k2 :: ks).all (fun x => (st.getSet x).contains e))) := by
  simp [Store.sInter, h]

theorem zScore_ok {st : Store} (h : st.failing = false) (e : String) :
    st.zScore e = Except.ok (listRank st.rank e) := by
  simp [Store.zScore, h]

theorem scanKeys_ok {st : Store} (h : st.failing = false) (w : String) :
    st.scanKeys w = Except.ok (st.scanList w) := by
  simp [Store.scanKeys, h]

theorem getRanks_ok {st : Store} (h : st.failing = false) (cpes : List String) :
    getRanks st cpes = Except.ok (cpes.map (fun c => (st.rankOf c, c))) := by
  induction cpes with
  | nil => rfl
  | cons c rest ih =>
    simp only [getRanks, zScore_ok h, ih]
    rfl

theorem mem_sortRanked {x : Int × String} {l : List (Int × String)} :
    x ∈ sortRanked l ↔ x ∈ l :=
  (List.perm_insertionSort rankGE l).mem_iff

theorem sorted_sortRanked (l : List (Int × String)) : sortedByRankDesc (sortRanked l) :=
  List.sorted_insertionSort rankGE l

theorem mem_assembleRanked {st : Store} {cpes : List String} {e : String} :
    (∃ s, (s, e) ∈ assembleRanked st cpes) ↔ e ∈ cpes := by
  constructor
  · rintro ⟨s, hs⟩
    rw [assembleRanked] at hs
    rcases List.mem_map.mp (mem_sortRanked.mp hs) with ⟨c, hc, he⟩
    have h2 : c = e := congrArg Prod.snd he
    rw [← h2]
    exact hc
  · intro hc
    exact ⟨st.rankOf e, mem_sortRanked.mpr (List.mem_map.mpr ⟨e, hc, rfl⟩)⟩

theorem rank_assembleRanked {st : Store} {cpes : List String} {p : Int × String}
    (hp : p ∈ assembleRanked st cpes) : p.1 = st.rankOf p.2 := by
  rw [assembleRanked] at hp
  rcases List.mem_map.mp (mem_sortRanked.mp hp) with ⟨c, -, he⟩
  rw [← he]

theorem sorted_assembleRanked (st : Store) (cpes : List String) :
    sortedByRankDesc (assembleRanked st cpes) :=
  sorted_sortRanked _

theorem mem_cpesExact {st : Store} {w : String} {ws : List String} {e : String} :
    e ∈ cpesExact st (w :: ws) ↔ ∀ x ∈ w :: ws, e ∈ st.getSet (exactKey x) := by
  cases ws with
  | nil => simp [cpesExact]
  | cons w2 ws2 =>
    have h0 : cpesExact st (w :: w2 :: ws2) = (st.getSet (exactKey w)).filter
        (fun e => ((w2 :: ws2).map exactKey).all (fun x => (st.getSet x).contains e)) := rfl
    rw [h0, List.mem_filter, List.all_map, List.all_eq_true]
    constructor
    · rintro ⟨h1, h2⟩
      intro x hx
      rcases List.mem_cons.mp hx with hx1 | hx2
      · rw [hx1]
        exact h1
      · exact List.elem_iff.mp (h2 x hx2)
    · intro hall
      refine ⟨hall w (List.mem_cons_self _ _), fun x hx => ?_⟩
      exact List.elem_iff.mpr (hall x (List.mem_cons_of_mem _ hx))

theorem exactSearch_empty (st : Store) : exactSearch st [] = Except.ok [] := rfl

theorem exactSearch_ok {st : Store} (h : st.failing = false) (w : String) (ws : List String) :
    exactSearch st (w :: ws) = Except.ok
      (if (cpesExact st (w :: ws)).isEmpty then []
       else assembleRanked st (cpesExact st (w :: ws))) := by
  cases ws with
  | nil =>
    have hps : exactSearch st [w] =
        (match st.sMembers (exactKey w) with
         | Except.error e => Except.error e
         | Except.ok cpes =>
           if cpes.isEmpty then Except.ok []
           else
             match getRanks st cpes with
             | Except.error e => Except.error e
             | Except.ok ranked => Except.ok (sortRanked ranked)) := rfl
    rw [hps, sMembers_ok h]
    have hce : cpesExact st [w] = st.getSet (exactKey w) := rfl
    rw [hce]
    by_cases hc : (st.getSet (exactKey w)).isEmpty
    · simp [hc]
    · simp only [hc, Bool.false_eq_true, if_false]
      rw [getRanks_ok h]
      rfl
  | cons w2 ws2 =>
    have hps : exactSearch st (w :: w2 :: ws2) =
        (match st.sInter (exactKey w :: exactKey w2 :: ws2.map exactKey) with
         | Except.error e => Except.error e
         | Except.ok cpes =>
           if cpes.isEmpty then Except.ok []
           else
             match getRanks st cpes with
             | Except.error e => Except.error e
             | Except.ok ranked => Except.ok (sortRanked ranked)) := rfl
    have hred : exactSearch st (w :: w2 :: ws2) =
        (if ((st.getSet (exactKey w)).filter
              (fun e => (exactKey w2 :: ws2.map exactKey).all
                (fun x => (st.getSet x).contains e))).isEmpty
         then Except.ok []
         else
           match getRanks st ((st.getSet (exactKey w)).filter
               (fun e => (exactKey w2 :: ws2.map exactKey).all
                 (fun x => (st.getSet x).contains e))) with
           | Except.error e => Except.error e
           | Except.ok ranked => Except.ok (sortRanked ranked)) := by
      rw [hps, sInter_ok2 h]
    have hce : cpesExact st (w :: w2 :: ws2) = (st.getSet (exactKey w)).filter
        (fun e => (exactKey w2 :: ws2.map exactKey).all (fun x => (st.getSet x).contains e)) := rfl
    rw [hred, hce]
    by_cases hc : ((st.getSet (exactKey w)).filter
        (fun e => (exactKey w2 :: ws2.map exactKey).all (fun x => (st.getSet x).contains e))).isEmpty
    · rw [if_pos hc, if_pos hc]
    · rw [if_neg hc, if_neg hc, getRanks_ok h]
      rfl

theorem exactSearch_fail {st : Store} (h : st.failing = true) (w : String) (ws : List String) :
    ∃ msg, exactSearch st (w :: ws) = Except.error msg := by
  cases ws with
  | nil =>
    refine ⟨"SMEMBERS failed", ?_⟩
    have hps : exactSearch st [w] =
        (match st.sMembers (exactKey w) with
         | Except.error e => Except.error e
         | Except.ok cpes =>
           if cpes.isEmpty then Except.ok []
           else
             match getRanks st cpes with
             | Except.error e => Except.error e
             | Except.ok ranked => Except.ok (sortRanked ranked)) := rfl
    rw [hps]
    simp [Store.sMembers, h]
  | cons w2 ws2 =>
    refine ⟨"SINTER failed", ?_⟩
    have hps : exactSearch st (w :: w2 :: ws2) =
        (match st.sInter (exactKey w :: exactKey w2 :: ws2.map exactKey) with
         | Except.error e => Except.error e
         | Except.ok cpes =>
           if cpes.isEmpty then Except.ok []
           else
             match getRanks st cpes with
             | Except.error e => Except.error e
             | Except.ok ranked => Except.ok (sortRanked ranked)) := rfl
    rw [hps]
    simp [Store.sInter, h]

theorem mem_addMember {acc : List String} {c x : String} :
    x ∈ addMember acc c ↔ x ∈ acc ∨ x = c := by
  rw [addMember]
  by_cases h : c ∈ acc
  · rw [if_pos h]
    constructor
    · exact Or.inl
    · rintro (hx | rfl)
      · exact hx
      · exact h
  · rw [if_neg h]
    simp [List.mem_append]

theorem mem_foldl_addMember {ms : List String} {acc : List String} {x : String} :
    x ∈ ms.foldl addMember acc ↔ x ∈ acc ∨ x ∈ ms := by
  induction ms generalizing acc with
  | nil => simp
  | cons m ms ih =>
    rw [List.foldl_cons, ih, mem_addMember]
    simp [List.mem_cons, or_assoc]

theorem mem_foldl_keys {st : Store} {keys : List String} {acc : List String} {x : String} :
    x ∈ keys.foldl (fun a k => (st.getSet k).foldl addMember a) acc
      ↔ x ∈ acc ∨ ∃ k ∈ keys, x ∈ st.getSet k := by
  induction keys generalizing acc with
  | nil => simp
  | cons k keys ih =>
    rw [List.foldl_cons, ih, mem_foldl_addMember]
    constructor
    · rintro ((hx | hx) | ⟨k2, hk2, hx⟩)
      · exact Or.inl hx
      · exact Or.inr ⟨k, List.mem_cons_self _ _, hx⟩
      · exact Or.inr ⟨k2, List.mem_cons_of_mem _ hk2, hx⟩
    · rintro (hx | ⟨k2, hk2, hx⟩)
      · exact Or.inl (Or.inl hx)
      · rcases List.mem_cons.mp hk2 with h1 | h1
        · subst h1
          exact Or.inl (Or.inr hx)
        · exact Or.inr ⟨k2, h1, hx⟩

theorem mem_foldl_words {st : Store} {ws : List String} {acc : List String} {x : String} :
    x ∈ ws.foldl
        (fun a w => (st.scanList w).foldl (fun a2 k => (st.getSet k).foldl addMember a2) a) acc
      ↔ x ∈ acc ∨ ∃ w ∈ ws, ∃ k ∈ st.scanList w, x ∈ st.getSet k := by
  induction ws generalizing acc with
  | nil => simp
  | cons w ws ih =>
    rw [List.foldl_cons, ih, mem_foldl_keys]
    constructor
    · rintro ((hx | ⟨k, hk, hx⟩) | ⟨w2, hw2, k, hk, hx⟩)
      · exact Or.inl hx
      · exact Or.inr ⟨w, List.mem_cons_self _ _, k, hk, hx⟩
      · exact Or.inr ⟨w2, List.mem_cons_of_mem _ hw2, k, hk, hx⟩
    · rintro (hx | ⟨w2, hw2, k, hk, hx⟩)
      · exact Or.inl (Or.inl hx)
      · rcases List.mem_cons.mp hw2 with h1 | h1
        · subst h1
          exact Or.inl (Or.inr ⟨k, hk, hx⟩)
        · exact Or.inr ⟨w2, h1, k, hk, hx⟩

theorem mem_cpesPartial {st : Store} {ws : List String} {x : String} :
    x ∈ cpesPartial st ws ↔ ∃ w ∈ ws, ∃ k ∈ st.scanList w, x ∈ st.getSet k := by
  rw [cpesPartial, mem_foldl_words]
  simp

theorem mem_scanList {st : Store} {w k : String} :
    k ∈ st.scanList w ↔ k ∈ st.wsets.map Prod.fst ∧ scanMatch w k = true := by
  rw [Store.scanList]
  exact List.mem_filter

theorem getSet_key_of_mem {st : Store} {k e : String} (h : e ∈ st.getSet k) :
    k ∈ st.wsets.map Prod.fst :=
  mem_listGetSet_key h

theorem collectKeys_ok {st : Store} (h : st.failing = false) (keys acc : List String) :
    collectKeys st acc keys
      = Except.ok (keys.foldl (fun a k => (st.getSet k).foldl addMember a) acc) := by
  induction keys generalizing acc with
  | nil => rfl
  | cons k keys ih =>
    have h0 : collectKeys st acc (k :: keys) =
        (match st.sMembers k with
         | Except.error e => Except.error e
         | Except.ok ms => collectKeys st (ms.foldl addMember acc) keys) := rfl
    rw [h0, sMembers_ok h]
    show collectKeys st ((st.getSet k).foldl addMember acc) keys
        = Except.ok ((k :: keys).foldl (fun a k2 => (st.getSet k2).foldl addMember a) acc)
    rw [ih, List.foldl_cons]

theorem collectWords_ok {st : Store} (h : st.failing = false) (ws acc : List String) :
    collectWords st acc ws = Except.ok
      (ws.foldl
        (fun a w => (st.scanList w).foldl (fun a2 k => (st.getSet k).foldl addMember a2) a)
        acc) := by
  induction ws generalizing acc with
  | nil => rfl
  | cons w ws ih =>
    have h0 : collectWords st acc (w :: ws) =
        (match st.scanKeys w with
         | Except.error e => Except.error e
         | Except.ok keys =>
           match collectKeys st acc keys with
           | Except.error e => Except.error e
           | Except.ok acc2 => collectWords st acc2 ws) := rfl
    rw [h0, scanKeys_ok h]
    show (match collectKeys st acc (st.scanList w) with
          | Except.error e => Except.error e
          | Except.ok acc2 => collectWords st acc2 ws)
        = Except.ok ((w :: ws).foldl
            (fun a w2 => (st.scanList w2).foldl (fun a2 k => (st.getSet k).foldl addMember a2) a)
            acc)
    rw [collectKeys_ok h]
    show collectWords st ((st.scanList w).foldl
          (fun a k => (st.getSet k).foldl addMember a) acc) ws
        = Except.ok ((w :: ws).foldl
            (fun a w2 => (st.scanList w2).foldl (fun a2 k => (st.getSet k).foldl addMember a2) a)
            acc)
    rw [ih, List.foldl_cons]

theorem partialSearch_empty (st : Store) : partialSearch st [] = Except.ok [] := rfl

theorem partialSearch_ok {st : Store} (h : st.failing = false) (w : String) (ws : List String) :
    partialSearch st (w :: ws) = Except.ok
      (if (cpesPartial st (w :: ws)).isEmpty then []
       else assembleRanked st (cpesPartial st (w :: ws))) := by
  have hps : partialSearch st (w :: ws) =
      (match collectWords st [] (w :: ws) with
       | Except.error e => Except.error e
       | Except.ok cpes =>
         if cpes.isEmpty then Except.ok []
         else
           match getRanks st cpes with
           | Except.error e => Except.error e
           | Except.ok ranked => Except.ok (sortRanked ranked)) := rfl
  have hred : partialSearch st (w :: ws) =
      (if (cpesPartial st (w :: ws)).isEmpty then Except.ok []
       else
         match getRanks st (cpesPartial st (w :: ws)) with
         | Except.error e => Except.error e
         | Except.ok ranked => Except.ok (sortRanked ranked)) := by
    rw [hps, collectWords_ok h]
    rfl
  rw [hred]
  by_cases hc : (cpesPartial st (w :: ws)).isEmpty
  · rw [if_pos hc, if_pos hc]
  · rw [if_neg hc, if_neg hc, getRanks_ok h]
    rfl

theorem partialSearch_fail {st : Store} (h : st.failing = true) (w : String) (ws : List String) :
    ∃ msg, partialSearch st (w :: ws) = Except.error msg := by
  refine ⟨"SCAN failed", ?_⟩
  have hps : partialSearch st (w :: ws) =
      (match collectWords st [] (w :: ws) with
       | Except.error e => Except.error e
       | Except.ok cpes =>
         if cpes.isEmpty then Except.ok []
         else
           match getRanks st cpes with
           | Except.error e => Except.error e
           | Except.ok ranked => Except.ok (sortRanked ranked)) := rfl
  rw [hps]
  have hcw : collectWords st ([] : List String) (w :: ws) = Except.error "SCAN failed" := by
    have h0 : collectWords st ([] : List String) (w :: ws) =
        (match st.scanKeys w with
         | Except.error e => Except.error e
         | Except.ok keys =>
           match collectKeys st [] keys with
           | Except.error e => Except.error e
           | Except.ok acc2 => collectWords st acc2 ws) := rfl
    rw [h0]
    simp [Store.scanKeys, h]
  rw [hcw]

theorem exact_entries {st : Store} (h : st.failing = false) (w : String) (ws : List String) :
    ∃ res, exactSearch st (w :: ws) = Except.ok res ∧
      (∀ e, (∃ s, (s, e) ∈ res) ↔ ∀ x ∈ w :: ws, e ∈ st.getSet (exactKey x)) ∧
      (∀ p ∈ res, p.1 = st.rankOf p.2) ∧ sortedByRankDesc res := by
  rw [exactSearch_ok h]
  by_cases hc : (cpesExact st (w :: ws)).isEmpty
  · refine ⟨[], by rw [if_pos hc], ?_, by simp, List.Pairwise.nil⟩
    intro e
    constructor
    · rintro ⟨s, hs⟩
      simp at hs
    · intro hall
      have hmem : e ∈ cpesExact st (w :: ws) := mem_cpesExact.mpr hall
      rw [List.isEmpty_iff.mp hc] at hmem
      simp at hmem
  · refine ⟨assembleRanked st (cpesExact st (w :: ws)), by rw [if_neg hc], ?_,
      fun p hp => rank_assembleRanked hp, sorted_assembleRanked _ _⟩
    intro e
    rw [mem_assembleRanked, mem_cpesExact]

theorem partial_entries {st : Store} (h : st.failing = false) (q : List String) :
    ∃ pres, partialSearch st q = Except.ok pres ∧
      (∀ e, (∃ s, (s, e) ∈ pres) ↔ ∃ w ∈ q, ∃ k, scanMatch w k = true ∧ e ∈ st.getSet k) ∧
      (∀ p ∈ pres, p.1 = st.rankOf p.2) ∧ sortedByRankDesc pres := by
  cases q with
  | nil =>
    refine ⟨[], partialSearch_empty st, ?_, by simp, List.Pairwise.nil⟩
    simp
  | cons w ws =>
    rw [partialSearch_ok h]
    by_cases hc : (cpesPartial st (w :: ws)).isEmpty
    · refine ⟨[], by rw [if_pos hc], ?_, by simp, List.Pairwise.nil⟩
      intro e
      constructor
      · rintro ⟨s, hs⟩
        simp at hs
      · rintro ⟨w2, hw2, k, hk, he⟩
        have hmem : e ∈ cpesPartial st (w :: ws) :=
          mem_cpesPartial.mpr ⟨w2, hw2, k, mem_scanList.mpr ⟨getSet_key_of_mem he, hk⟩, he⟩
        rw [List.isEmpty_iff.mp hc] at hmem
        simp at hmem
    · refine ⟨assembleRanked st (cpesPartial st (w :: ws)), by rw [if_neg hc], ?_,
        fun p hp => rank_assembleRanked hp, sorted_assembleRanked _ _⟩
      intro e
      rw [mem_assembleRanked, mem_cpesPartial]
      constructor
      · rintro ⟨w2, hw2, k, hk, he⟩
        exact ⟨w2, hw2, k, (mem_scanList.mp hk).2, he⟩
      · rintro ⟨w2, hw2, k, hk, he⟩
        exact ⟨w2, hw2, k, mem_scanList.mpr ⟨getSet_key_of_mem he, hk⟩, he⟩

theorem mem_listGetSet_addToSet {ws : List (String × List String)} {k e k2 e2 : String}
    (h : e2 ∈ listGetSet (addToSet ws k e) k2) :
    e2 ∈ listGetSet ws k2 ∨ (e2 = e ∧ k2 = k) := by
  induction ws with
  | nil =>
    by_cases hk : k = k2
    · subst hk
      simp [addToSet, listGetSet] at h
      exact Or.inr ⟨h, rfl⟩
    · simp [addToSet, listGetSet, hk] at h
  | cons kv rest ih =>
    by_cases hk : kv.1 = k
    · simp only [addToSet, if_pos hk] at h
      by_cases hk2 : kv.1 = k2
      · simp only [listGetSet, if_pos hk2] at h ⊢
        by_cases hc : e ∈ kv.2
        · simp only [if_pos hc] at h
          exact Or.inl h
        · simp only [if_neg hc] at h
          rcases List.mem_append.mp h with h1 | h1
          · exact Or.inl h1
          · simp at h1
            exact Or.inr ⟨h1, by rw [← hk2, hk]⟩
      · simp only [listGetSet, if_neg hk2] at h ⊢
        exact Or.inl h
    · simp only [addToSet, if_neg hk] at h
      by_cases hk2 : kv.1 = k2
      · simp only [listGetSet, if_pos hk2] at h ⊢
        exact Or.inl h
      · simp only [listGetSet, if_neg hk2] at h ⊢
        exact ih h

theorem mem_addToSet_self (ws : List (String × List String)) (k e : String) :
    e ∈ listGetSet (addToSet ws k e) k := by
  induction ws with
  | nil => simp [addToSet, listGetSet]
  | cons kv rest ih =>
    by_cases hk : kv.1 = k
    · simp only [addToSet, if_pos hk, listGetSet, if_pos hk]
      by_cases hc : e ∈ kv.2
      · rw [if_pos hc]
        exact hc
      · rw [if_neg hc]
        exact List.mem_append.mpr (Or.inr (by simp))
    · simp only [addToSet, if_neg hk, listGetSet, if_neg hk]
      exact ih

theorem mem_addToSet_mono {ws : List (String × List String)} {k2 e2 : String}
    (h : e2 ∈ listGetSet ws k2) (k e : String) :
    e2 ∈ listGetSet (addToSet ws k e) k2 := by
  induction ws with
  | nil => simp [listGetSet] at h
  | cons kv rest ih =>
    by_cases hk : kv.1 = k
    · by_cases hk2 : kv.1 = k2
      · simp only [listGetSet, if_pos hk2] at h
        simp only [addToSet, if_pos hk, listGetSet, if_pos hk2]
        by_cases hc : e ∈ kv.2
        · rw [if_pos hc]
          exact h
        · rw [if_neg hc]
          exact List.mem_append.mpr (Or.inl h)
      · simp only [listGetSet, if_neg hk2] at h
        simp only [addToSet, if_pos hk, listGetSet, if_neg hk2]
        exact h
    · by_cases hk2 : kv.1 = k2
      · simp only [listGetSet, if_pos hk2] at h
        simp only [addToSet, if_neg hk, listGetSet, if_pos hk2]
        exact h
      · simp only [listGetSet, if_neg hk2] at h
        simp only [addToSet, if_neg hk, listGetSet, if_neg hk2]
        exact ih h

theorem mem_foldl_addToSet_mono {ws : List (String × List String)} {k2 e2 : String}
    (h : e2 ∈ listGetSet ws k2) (e : String) (ts : List String) :
    e2 ∈ listGetSet (ts.foldl (fun w t => addToSet w ("w:" ++ t) e) ws) k2 := by
  induction ts generalizing ws with
  | nil => exact h
  | cons t ts ih => exact ih (mem_addToSet_mono h _ _)

theorem buildFold_wsets (e : String) (ts : List String) (st : Store) :
    (ts.foldl (fun s t =>
        { s with
          wsets := addToSet s.wsets ("w:" ++ t) e,
          sscores := addZIncr s.sscores ("s:" ++ t) e }) st).wsets
      = ts.foldl (fun w t => addToSet w ("w:" ++ t) e) st.wsets := by
  induction ts generalizing st with
  | nil => rfl
  | cons t ts ih =>
    rw [List.foldl_cons, List.foldl_cons, ih]

theorem buildStep_wsets (st : Store) (full : String) :
    (buildStep st full).wsets
      = (canonize (extract full).1 ++ canonize (extract full).2.1).foldl
          (fun w t => addToSet w ("w:" ++ t) (extract full).2.2) st.wsets := by
  rcases hx : extract full with ⟨vendor, product, entry⟩
  have h0 : (buildStep st full).wsets
      = ((canonize vendor ++ canonize product).foldl
          (fun s t =>
            { s with
              wsets := addToSet s.wsets ("w:" ++ t) entry,
              sscores := addZIncr s.sscores ("s:" ++ t) entry }) st).wsets := by
    rw [buildStep, hx]
  rw [h0, buildFold_wsets]

theorem inv_addToSet {ws : List (String × List String)} {k e : String}
    (hinv : ∀ k2 e2, e2 ∈ listGetSet ws k2 → entryOK e2 ∨ k2 = "w:")
    (he : entryOK e ∨ k = "w:") :
    ∀ k2 e2, e2 ∈ listGetSet (addToSet ws k e) k2 → entryOK e2 ∨ k2 = "w:" := by
  intro k2 e2 h
  rcases mem_listGetSet_addToSet h with h1 | ⟨h1, h2⟩
  · exact hinv k2 e2 h1
  · subst h1
    subst h2
    exact he

theorem inv_foldl_addToSet {e : String} (ts : List String)
    (he : entryOK e ∨ ∀ t ∈ ts, t = "")
    {ws : List (String × List String)}
    (hinv : ∀ k2 e2, e2 ∈ listGetSet ws k2 → entryOK e2 ∨ k2 = "w:") :
    ∀ k2 e2, e2 ∈ listGetSet (ts.foldl (fun w t => addToSet w ("w:" ++ t) e) ws) k2
      → entryOK e2 ∨ k2 = "w:" := by
  induction ts generalizing ws with
  | nil => exact hinv
  | cons t ts ih =>
    have he1 : entryOK e ∨ ("w:" ++ t) = "w:" := by
      rcases he with he | he
      · exact Or.inl he
      · rw [he t (List.mem_cons_self t ts)]
        exact Or.inr rfl
    have he2 : entryOK e ∨ ∀ x ∈ ts, x = "" := by
      rcases he with he | he
      · exact Or.inl he
      · exact Or.inr (fun x hx => he x (List.mem_cons_of_mem t hx))
    exact ih he2 (inv_addToSet hinv he1)

theorem inv_buildStep {st : Store} {full : String}
    (hinv : ∀ k e, e ∈ st.getSet k → entryOK e ∨ k = "w:") :
    ∀ k e, e ∈ (buildStep st full).getSet k → entryOK e ∨ k = "w:" := by
  intro k e hmem
  rw [Store.getSet, buildStep_wsets] at hmem
  by_cases h : (splitSep ':' full.data).length < 5
  · have hts : ∀ t ∈ canonize (extract full).1 ++ canonize (extract full).2.1, t = "" := by
      rw [extract_malformed h]
      show ∀ t ∈ ([""] ++ [""] : List String), t = ""
      decide
    exact inv_foldl_addToSet _ (Or.inr hts) hinv k e hmem
  · exact inv_foldl_addToSet _ (Or.inl (extract_entry_fields h)) hinv k e hmem

theorem inv_runImport (records : List String) :
    ∀ k e, e ∈ (runImport records).getSet k → entryOK e ∨ k = "w:" := by
  have hgen : ∀ (rs : List String) (st : Store),
      (∀ k e, e ∈ st.getSet k → entryOK e ∨ k = "w:") →
      ∀ k e, e ∈ (rs.foldl buildStep st).getSet k → entryOK e ∨ k = "w:" := by
    intro rs
    induction rs with
    | nil => intro st hst; exact hst
    | cons r rs ih =>
      intro st hst
      rw [List.foldl_cons]
      exact ih (buildStep st r) (inv_buildStep hst)
  rw [runImport]
  refine hgen records _ ?_
  intro k e hmem
  simp [Store.getSet, listGetSet] at hmem

theorem buildStep_mono {st : Store} {k e : String} (h : e ∈ st.getSet k) (full : String) :
    e ∈ (buildStep st full).getSet k := by
  rw [Store.getSet, buildStep_wsets]
  exact mem_foldl_addToSet_mono h _ _

theorem foldl_buildStep_mono {k e : String} (rs : List String) {st : Store}
    (h : e ∈ st.getSet k) : e ∈ (rs.foldl buildStep st).getSet k := by
  induction rs generalizing st with
  | nil => exact h
  | cons r rs ih =>
    rw [List.foldl_cons]
    exact ih (buildStep_mono h r)

theorem malformed_mem_buildStep {st : Store} {full : String}
    (hmal : (splitSep ':' full.data).length < 5) :
    full ∈ (buildStep st full).getSet "w:" := by
  have h0 : (buildStep st full).wsets
      = addToSet (addToSet st.wsets "w:" full) "w:" full := by
    rw [buildStep_wsets, extract_malformed hmal]
    rfl
  rw [Store.getSet, h0]
  exact mem_addToSet_self _ _ _

theorem malformed_mem_foldl {full : String}
    (hmal : (splitSep ':' full.data).length < 5) :
    ∀ (rs : List String) (st : Store), full ∈ rs →
      full ∈ (rs.foldl buildStep st).getSet "w:" := by
  intro rs
  induction rs with
  | nil =>
    intro st h
    simp at h
  | cons r rs ih =>
    intro st h
    rw [List.foldl_cons]
    rcases List.mem_cons.mp h with h1 | h1
    · subst h1
      exact foldl_buildStep_mono rs (malformed_mem_buildStep hmal)
    · exact ih _ h1

theorem handleSearch_some (st : Store) (q : List String) :
    handleSearch (some q) st =
      (match exactSearch st q with
       | Except.error e => SearchResponse.serverError e
       | Except.ok res =>
         if res.isEmpty then
           match partialSearch st q with
           | Except.error e => SearchResponse.serverError e
           | Except.ok res2 => SearchResponse.ok res2
         else SearchResponse.ok res) := rfl

theorem handleSearch_exact_ok {st : Store} {q : List String} {res : List (Int × String)}
    (hex : exactSearch st q = Except.ok res) (hne : res ≠ []) :
    handleSearch (some q) st = SearchResponse.ok res := by
  rw [handleSearch_some, hex]
  cases res with
  | nil => exact absurd rfl hne
  | cons r rs => rfl

theorem handleSearch_fallback {st : Store} {q : List String} {pres : List (Int × String)}
    (hex : exactSearch st q = Except.ok []) (hp : partialSearch st q = Except.ok pres) :
    handleSearch (some q) st = SearchResponse.ok pres := by
  rw [handleSearch_some, hex, hp]
  rfl

theorem handleSearch_exact_err {st : Store} {q : List String} {msg : String}
    (hex : exactSearch st q = Except.error msg) :
    handleSearch (some q) st = SearchResponse.serverError msg := by
  rw [handleSearch_some, hex]

theorem handleUnique_some (st : Store) (q : List String) :
    handleUnique (some q) st =
      (match exactSearch st q with
       | Except.ok (r :: _) => UniqueResponse.found r.2
       | _ =>
         match partialSearch st q with
         | Except.ok (r :: _) => UniqueResponse.found r.2
         | _ => UniqueResponse.noMatch) := rfl

theorem handleUnique_noMatch_of_fail {st : Store} {q : List String} {m1 m2 : String}
    (hex : exactSearch st q = Except.error m1) (hp : partialSearch st q = Except.error m2) :
    handleUnique (some q) st = UniqueResponse.noMatch := by
  rw [handleUnique_some, hex, hp]

theorem scan_key_token {st : Store} {w e : String}
    (hw : ∀ c ∈ (strLower w).data, c ≠ '*' ∧ c ≠ '?') :
    (∃ k, scanMatch w k = true ∧ e ∈ st.getSet k)
      ↔ ∃ tok : String, isSubList (strLower w).data tok.data = true
          ∧ e ∈ st.getSet ("w:" ++ tok) := by
  constructor
  · rintro ⟨k, hk, he⟩
    rcases (scanMatch_iff hw).mp hk with ⟨rest, hkd, hsub⟩
    refine ⟨String.mk rest, hsub, ?_⟩
    have hkey : k = "w:" ++ String.mk rest := String.ext (by rw [hkd]; rfl)
    rw [← hkey]
    exact he
  · rintro ⟨tok, hsub, he⟩
    exact ⟨"w:" ++ tok, (scanMatch_iff hw).mpr ⟨tok.data, rfl, hsub⟩, he⟩

/-- C1: for every non-empty keyword list against a non-failing store, the
exact strategy succeeds and its result holds exactly the entries lying in
every keyword's entry set: the intersection of the per-keyword lookups of the
inverted index, which for a single keyword degenerates to that keyword's
entry set. -/
theorem exact_search_intersection (st : Store) (h : st.failing = false)
    (w : String) (ws : List String) :
    ∃ res, exactSearch st (w :: ws) = Except.ok res ∧
      ∀ e, (∃ s, (s, e) ∈ res) ↔ ∀ x ∈ w :: ws, e ∈ st.getSet ("w:" ++ strLower x) := by
  rcases exact_entries h w ws with ⟨res, hres, hiff, -, -⟩
  exact ⟨res, hres, hiff⟩

theorem exact_search_intersection_witness :
    (∃ res, exactSearch demoStore ["apache", "tomcat"] = Except.ok res ∧
      ∀ e, (∃ s, (s, e) ∈ res) ↔ ∀ x ∈ ["apache", "tomcat"],
        e ∈ demoStore.getSet ("w:" ++ strLower x)) ∧
    (∃ res, exactSearch demoStore ["apache"] = Except.ok res ∧
      ∀ e, (∃ s, (s, e) ∈ res) ↔ ∀ x ∈ ["apache"],
        e ∈ demoStore.getSet ("w:" ++ strLower x)) :=
  ⟨exact_search_intersection demoStore rfl "apache" ["tomcat"],
   exact_search_intersection demoStore rfl "apache" []⟩

/-- C2 counterexample: for the keyword "*" the SCAN pattern degenerates to a
wildcard, so the partial strategy returns the entry E9 although the only
indexed token "abc" does not contain the character * as a substring. -/
theorem partial_glob_cex :
    partialSearch globStore ["*"] = Except.ok [(0, "E9")] ∧
      isSubList (strLower "*").data "abc".data = false ∧
      globStore.wsets.map Prod.fst = ["w:abc"] :=
  ⟨rfl, by decide, rfl⟩

/-- C2 (amended): on a non-failing store, the search handler answers with the
partial result exactly when the exact strategy yields no results and with the
exact result otherwise; and for queries whose keywords contain no glob
metacharacter, the partial result holds exactly the union over all keywords
of the entry sets of every indexed token containing that keyword as an
unanchored substring. -/
theorem partial_fallback_union (st : Store) (h : st.failing = false) (q : List String)
    (hlit : ∀ w ∈ q, litKeyword w) :
    ∃ pres, partialSearch st q = Except.ok pres ∧
      (exactSearch st q = Except.ok [] → handleSearch (some q) st = SearchResponse.ok pres) ∧
      (∀ res, exactSearch st q = Except.ok res → res ≠ [] →
        handleSearch (some q) st = SearchResponse.ok res) ∧
      (∀ e, (∃ s, (s, e) ∈ pres) ↔ ∃ w ∈ q, ∃ tok : String,
        isSubList (strLower w).data tok.data = true ∧ e ∈ st.getSet ("w:" ++ tok)) := by
  rcases partial_entries h q with ⟨pres, hp, hiff, -, -⟩
  refine ⟨pres, hp, fun hex => handleSearch_fallback hex hp,
    fun res hres hne => handleSearch_exact_ok hres hne, fun e => ?_⟩
  rw [hiff e]
  constructor
  · rintro ⟨w, hwq, hk⟩
    exact ⟨w, hwq,
      (scan_key_token (fun c hc => ⟨(hlit w hwq c hc).1, (hlit w hwq c hc).2.1⟩)).mp hk⟩
  · rintro ⟨w, hwq, htok⟩
    exact ⟨w, hwq,
      (scan_key_token (fun c hc => ⟨(hlit w hwq c hc).1, (hlit w hwq c hc).2.1⟩)).mpr htok⟩

theorem partial_fallback_union_witness :
    ∃ pres, partialSearch demoStore ["tom"] = Except.ok pres ∧
      (exactSearch demoStore ["tom"] = Except.ok []
        → handleSearch (some ["tom"]) demoStore = SearchResponse.ok pres) ∧
      (∀ res, exactSearch demoStore ["tom"] = Except.ok res → res ≠ [] →
        handleSearch (some ["tom"]) demoStore = SearchResponse.ok res) ∧
      (∀ e, (∃ s, (s, e) ∈ pres) ↔ ∃ w ∈ ["tom"], ∃ tok : String,
        isSubList (strLower w).data tok.data = true
          ∧ e ∈ demoStore.getSet ("w:" ++ tok)) :=
  partial_fallback_union demoStore rfl ["tom"] (by decide)

/-- C3: any result list either strategy returns pairs each surviving entry
with its rank-table score (0 when the entry has no rank) and is sorted with
non-increasing scores. -/
theorem results_ranked_sorted (st : Store) (ws : List String) :
    (∀ res, exactSearch st ws = Except.ok res →
      sortedByRankDesc res ∧ ∀ p ∈ res, p.1 = st.rankOf p.2) ∧
    (∀ res, partialSearch st ws = Except.ok res →
      sortedByRankDesc res ∧ ∀ p ∈ res, p.1 = st.rankOf p.2) := by
  constructor
  · intro res hres
    cases ws with
    | nil =>
      rw [exactSearch_empty] at hres
      injection hres with h1
      rw [← h1]
      exact ⟨List.Pairwise.nil, by simp⟩
    | cons w ws2 =>
      cases hf : st.failing
      · rcases exact_entries hf w ws2 with ⟨res2, hres2, -, hrank, hsort⟩
        rw [hres2] at hres
        injection hres with h1
        rw [← h1]
        exact ⟨hsort, hrank⟩
      · rcases exactSearch_fail hf w ws2 with ⟨msg, hmsg⟩
        rw [hmsg] at hres
        simp at hres
  · intro res hres
    cases ws with
    | nil =>
      rw [partialSearch_empty] at hres
      injection hres with h1
      rw [← h1]
      exact ⟨List.Pairwise.nil, by simp⟩
    | cons w ws2 =>
      cases hf : st.failing
      · rcases partial_entries hf (w :: ws2) with ⟨pres, hp, -, hrank, hsort⟩
        rw [hp] at hres
        injection hres with h1
        rw [← h1]
        exact ⟨hsort, hrank⟩
      · rcases partialSearch_fail hf w ws2 with ⟨msg, hmsg⟩
        rw [hmsg] at hres
        simp at hres

theorem results_ranked_sorted_witness :
    sortedByRankDesc [((5 : Int), "E1"), ((3 : Int), "E2")] ∧
      ∀ p ∈ [((5 : Int), "E1"), ((3 : Int), "E2")], p.1 = demoStore.rankOf p.2 :=
  (results_ranked_sorted demoStore ["apache"]).1 [(5, "E1"), (3, "E2")] rfl

/-- C4 counterexample: the exact strategy looks up the whole lowercased
keyword: for "a_b" it queries the set "w:a_b" and finds nothing, while the
lookup of the first canonicalized token "a" would have found E1. -/
theorem exact_key_cex :
    exactSearch oneKeyStore ["a_b"] = Except.ok [] ∧
      (canonize "a_b").headD "" = "a" ∧
      oneKeyStore.getSet ("w:" ++ "a") = ["E1"] :=
  ⟨rfl, rfl, rfl⟩

/-- C4 (amended): the exact-strategy lookup key for a keyword is the whole
keyword lowercased behind the "w:" prefix; no canonicalization or underscore
splitting is applied, and a single-keyword search returns exactly the member
set stored under that key. -/
theorem exact_key_whole_keyword (st : Store) (h : st.failing = false) (w : String) :
    ∃ res, exactSearch st [w] = Except.ok res ∧
      ∀ e, (∃ s, (s, e) ∈ res) ↔ e ∈ st.getSet ("w:" ++ strLower w) := by
  rcases exact_entries h w [] with ⟨res, hres, hiff, -, -⟩
  refine ⟨res, hres, fun e => ?_⟩
  rw [hiff e]
  simp [exactKey]

theorem exact_key_whole_keyword_witness :
    ∃ res, exactSearch demoStore ["TOMCAT"] = Except.ok res ∧
      ∀ e, (∃ s, (s, e) ∈ res) ↔ e ∈ demoStore.getSet ("w:" ++ strLower "TOMCAT") :=
  exact_key_whole_keyword demoStore rfl "TOMCAT"

/-- C5 counterexample: with a failing store both strategies error, yet the
unique handler replies with the empty no-match encoding instead of an
error. -/
theorem unique_swallows_error_cex :
    exactSearch failStore ["apache"] = Except.error "SMEMBERS failed" ∧
      partialSearch failStore ["apache"] = Except.error "SCAN failed" ∧
      handleUnique (some ["apache"]) failStore = UniqueResponse.noMatch :=
  ⟨rfl, rfl, rfl⟩

/-- C5 (amended): a store failure during a non-empty query surfaces as a
server error distinct from an empty result on the search path, but the unique
path swallows the failure and reports the empty no-match reply. -/
theorem store_failure_surfacing (st : Store) (h : st.failing = true)
    (w : String) (ws : List String) :
    (∃ msg, handleSearch (some (w :: ws)) st = SearchResponse.serverError msg) ∧
      handleUnique (some (w :: ws)) st = UniqueResponse.noMatch := by
  rcases exactSearch_fail h w ws with ⟨m1, hm1⟩
  rcases partialSearch_fail h w ws with ⟨m2, hm2⟩
  exact ⟨⟨m1, handleSearch_exact_err hm1⟩, handleUnique_noMatch_of_fail hm1 hm2⟩

theorem store_failure_surfacing_witness :
    (∃ msg, handleSearch (some ["apache"]) failStore = SearchResponse.serverError msg) ∧
      handleUnique (some ["apache"]) failStore = UniqueResponse.noMatch :=
  store_failure_surfacing failStore rfl "apache" []

/-- C6 counterexample: Go `strings.Split("", "_")` yields one empty piece, so
the canonicalizer maps the empty string to [""], the single empty token, not
to the empty sequence the claim asserts. -/
theorem canonize_empty_cex : canonize "" = [""] ∧ ([""] : List String) ≠ [] := by
  decide

/-- C6 (amended): the canonicalizer lowercases the input and splits it on
underscore, returning the pieces in split order with no deduplication —
joining the tokens back with underscores reproduces the lowercased input and
no token contains an underscore; it is a total function, never an error, and
the empty input yields the single empty token [""]. -/
theorem canonize_contract :
    canonize "" = [""] ∧
      ∀ s : String,
        joinSep '_' ((canonize s).map String.data) = (strLower s).data ∧
          ∀ t ∈ canonize s, '_' ∉ t.data :=
  ⟨canonize_empty, fun s => ⟨canonize_join s, fun _ ht => canonize_no_underscore ht⟩⟩

/-- C7 counterexample: the malformed record "cpe:2.3:a" IS indexed: the
extractor degrades it to empty vendor and product, canonizing "" yields the
single empty token, and the raw line is SAdd-ed into the empty token's set,
whose key is "w:" + "" = "w:". -/
theorem malformed_record_indexed_cex :
    extract "cpe:2.3:a" = ("", "", "cpe:2.3:a") ∧
      "cpe:2.3:a" ∈ (runImport ["cpe:2.3:a"]).getSet ("w:" ++ "") := by
  decide

/-- C7 (amended): a dictionary record whose full identifier has fewer than
five colon-separated fields does not abort the import (extraction degrades to
empty vendor and product and the raw line as entry), and after a fresh import
run its entry sits only in the empty token's entry set, stored under the key
"w:"; it is absent from every other token's exact-match entry set. -/
theorem malformed_record_only_empty_token (records : List String) (full : String)
    (hmem : full ∈ records) (hmal : (splitSep ':' full.data).length < 5) :
    extract full = ("", "", full) ∧
      full ∈ (runImport records).getSet "w:" ∧
      ∀ k, k ≠ "w:" → full ∉ (runImport records).getSet k := by
  refine ⟨extract_malformed hmal, ?_, fun k hk hmem2 => ?_⟩
  · rw [runImport]
    exact malformed_mem_foldl hmal records _ hmem
  · rcases inv_runImport records k full hmem2 with h5 | h5
    · rw [entryOK] at h5
      omega
    · exact hk h5

theorem malformed_record_only_empty_token_witness :
    extract "cpe:2.3:a" = ("", "", "cpe:2.3:a") ∧
      "cpe:2.3:a" ∈ (runImport ["cpe:2.3:a", "cpe:2.3:a:apache:tomcat:1.0"]).getSet "w:" ∧
      "cpe:2.3:a" ∉ (runImport ["cpe:2.3:a", "cpe:2.3:a:apache:tomcat:1.0"]).getSet
        "w:apache" := by
  have h := malformed_record_only_empty_token ["cpe:2.3:a", "cpe:2.3:a:apache:tomcat:1.0"]
    "cpe:2.3:a" (by decide) (by decide)
  exact ⟨h.1, h.2.1, h.2.2 "w:apache" (by decide)⟩

/-- C8 counterexample: an empty keyword list is answered with the empty
success encoding, not a client-error rejection, even on a failing store. -/
theorem empty_query_not_rejected_cex :
    handleSearch (some []) failStore = SearchResponse.ok [] ∧
      SearchResponse.ok [] ≠ SearchResponse.badRequest ∧
      handleUnique (some []) failStore = UniqueResponse.noMatch :=
  ⟨rfl, by decide, rfl⟩

/-- C8 (amended): a request with an empty keyword list is not rejected as a
client error: both handlers short-circuit before any store access (the
response is identical even on a failing store) and return the empty success
encoding; only a malformed body draws the client-error response. -/
theorem empty_query_empty_success (st : Store) :
    handleSearch (some []) st = SearchResponse.ok [] ∧
      handleUnique (some []) st = UniqueResponse.noMatch ∧
      handleSearch none st = SearchResponse.badRequest ∧
      handleUnique none st = UniqueResponse.badRequest :=
  ⟨rfl, rfl, rfl, rfl⟩

/-- C9: canonicalization is idempotent on its own output: every token of
canonize s — already lowercase and underscore-free, the empty token
included — re-canonicalizes to exactly that one token. -/
theorem canonize_idempotent (s t : String) (ht : t ∈ canonize s) :
    canonize t = [t] :=
  canonize_token_fixed ht

theorem canonize_idempotent_witness :
    canonize "tomcat" = ["tomcat"] ∧ canonize "" = [""] :=
  ⟨canonize_idempotent "apache_tomcat" "tomcat" (by decide),
   canonize_idempotent "a__b" "" (by decide)⟩

/-- C10: on a non-failing store whose member-set keys all carry the "w:"
prefix, a query containing the empty keyword makes the partial strategy
return every entry of the entire index, each paired with its rank-table
score. -/
theorem empty_keyword_full_index (st : Store) (h : st.failing = false)
    (hwf : st.wfKeys) (q : List String) (hq : "" ∈ q) :
    ∃ res, partialSearch st q = Except.ok res ∧
      (∀ e, (∃ s, (s, e) ∈ res) ↔ ∃ k, e ∈ st.getSet k) ∧
      ∀ p ∈ res, p.1 = st.rankOf p.2 := by
  rcases partial_entries h q with ⟨res, hp, hiff, hrank, -⟩
  refine ⟨res, hp, fun e => ?_, hrank⟩
  rw [hiff e]
  constructor
  · rintro ⟨w, hwq, k, hk, he⟩
    exact ⟨k, he⟩
  · rintro ⟨k, he⟩
    refine ⟨"", hq, k, ?_, he⟩
    have hkmem := getSet_key_of_mem he
    have htake := hwf k hkmem
    have hkd : k.data = 'w' :: ':' :: k.data.drop 2 := by
      have h2 : k.data.take 2 ++ k.data.drop 2 = k.data := List.take_append_drop 2 k.data
      rw [htake] at h2
      exact h2.symm
    apply (scanMatch_iff (by decide)).mpr
    refine ⟨k.data.drop 2, hkd, ?_⟩
    exact isSubList_iff.mpr ⟨[], k.data.drop 2, by simp [strLower]⟩

theorem empty_keyword_full_index_witness :
    ∃ res, partialSearch demoStore [""] = Except.ok res ∧
      (∀ e, (∃ s, (s, e) ∈ res) ↔ ∃ k, e ∈ demoStore.getSet k) ∧
      ∀ p ∈ res, p.1 = demoStore.rankOf p.2 :=
  empty_keyword_full_index demoStore rfl (by decide) [""] (by decide)

theorem empty_query_empty_success_witness :
    handleSearch (some []) failStore = SearchResponse.ok [] ∧
      handleUnique (some []) failStore = UniqueResponse.noMatch ∧
      handleSearch none failStore = SearchResponse.badRequest ∧
      handleUnique none failStore = UniqueResponse.badRequest :=
  empty_query_empty_success failStore
